/-
Verification of the hhaitam/covid repository (fetch.py + project.py)
against its natural-language specification.

The development shallowly embeds the two scripts:
  * fetch.py   — the month-stepping request loop and the CSV cell written
                 for the `region` column (a Python `str()` of a dict,
                 re-parsed downstream by `ast.literal_eval`).
  * project.py — `load_data`'s region parsing, `process_data`'s
                 normalize/filter/group-by-sum pipeline, and `main`'s
                 validation, fillna, max/idxmax metrics and rendering.

Dataframes are lists of records; machine dates are (year, month, day)
triples of naturals compared the way Python `datetime.date` compares
(lexicographically); Python's in-place column assignment is modelled by
explicit state passing (the function returns the mutated frame).
-/
import Mathlib

namespace Covid

/-- A calendar date, as Python's `datetime.date`: a (year, month, day) triple. -/
structure Date where
  year : Nat
  month : Nat
  day : Nat
deriving DecidableEq, Repr

/-- A timestamp as produced by `pd.to_datetime`: a date plus a time-of-day
(seconds within the day); `.dt.date` drops the time component. -/
structure DateTime where
  date : Date
  time : Nat
deriving DecidableEq, Repr

/-- Python `date` comparison: lexicographic on (year, month, day). -/
def dateLe (a b : Date) : Prop :=
  a.year < b.year ∨ (a.year = b.year ∧
    (a.month < b.month ∨ (a.month = b.month ∧ a.day ≤ b.day)))

/-- Python strict `date` comparison. -/
def dateLt (a b : Date) : Prop :=
  a.year < b.year ∨ (a.year = b.year ∧
    (a.month < b.month ∨ (a.month = b.month ∧ a.day < b.day)))

instance (a b : Date) : Decidable (dateLe a b) :=
  inferInstanceAs (Decidable (_ ∨ _))

instance (a b : Date) : Decidable (dateLt a b) :=
  inferInstanceAs (Decidable (_ ∨ _))

/-- A date representable by Python's `datetime.date` (as far as the month
arithmetic of the fetch loop is concerned). -/
def validDate (d : Date) : Prop := 1 ≤ d.month ∧ d.month ≤ 12 ∧ 1 ≤ d.day

instance (d : Date) : Decidable (validDate d) :=
  inferInstanceAs (Decidable (_ ∧ _))

/-- Month counter: `year * 12 + month`.  Two valid dates are in the same
calendar month iff their `monthIdx` agree. -/
def monthIdx (d : Date) : Nat := d.year * 12 + d.month

/-- One step of fetch.py's loop body (lines 30–33): move to the first day
of the next month, rolling December over to January of the next year. -/
def nextMonth (d : Date) : Date :=
  if d.month = 12 then ⟨d.year + 1, 1, 1⟩ else ⟨d.year, d.month + 1, 1⟩

/-- fetch.py's `while current_date <= end_date` loop (lines 23–33), with an
explicit fuel argument; each iteration records the date it requests and
steps with `nextMonth`. -/
def fetchLoop : Nat → Date → Date → List Date
  | 0, _, _ => []
  | fuel + 1, cur, e =>
      if dateLe cur e then cur :: fetchLoop fuel (nextMonth cur) e else []

/-- The sequence of dates fetch.py issues GET requests for, starting from
`start_date`.  The fuel `monthIdx e + 1 - monthIdx s` is exactly the number
of calendar months spanned; `fetchLoop_fuel_sufficient` below shows any
larger fuel gives the same list, i.e. the loop terminates on its own. -/
def fetchDates (s e : Date) : List Date :=
  fetchLoop (monthIdx e + 1 - monthIdx s) s e

/-! ### Dashboard data model (project.py) -/

/-- One row of the dataframe returned by `load_data`: the CSV columns
`date`, `region`, `confirmed`, `deaths`, `recovered` plus the derived
`country` and `iso_alpha` columns.  `recovered` may be null (NaN). -/
structure Row where
  date : DateTime
  region : String
  confirmed : Int
  deaths : Int
  recovered : Option Int
  country : String
  iso_alpha : String
deriving DecidableEq, Repr

/-- One row of the table returned by `process_data`: the group keys and the
summed statistics (`groupby` with `as_index=False` keeps only these). -/
structure AggRow where
  date : Date
  country : String
  iso_alpha : String
  confirmed : Int
  deaths : Int
  recovered : Option Int
deriving DecidableEq, Repr

/-- The assignment `df['date'] = pd.to_datetime(df['date']).dt.date` (project.py line 21):
the timestamp is truncated to calendar-date granularity.  Only the `date`
column changes. -/
def normalizeRow (r : Row) : Row := { r with date := ⟨r.date.date, 0⟩ }

/-- The `groupby` key of project.py line 28. -/
abbrev Key := Date × String × String

def keyOf (r : Row) : Key := (r.date.date, r.country, r.iso_alpha)

/-- Lexicographic code of a group key; pandas sorts group keys ascending,
column by column, which is exactly this lexicographic order (strings
compare lexicographically by character code point, as in Python). -/
def kEnc (k : Key) : (Nat ×ₗ Nat ×ₗ Nat) ×ₗ (List Char ×ₗ List Char) :=
  toLex (toLex (k.1.year, toLex (k.1.month, k.1.day)), toLex (k.2.1.data, k.2.2.data))

def keyLe (a b : Key) : Prop := kEnc a ≤ kEnc b

instance : DecidableRel keyLe :=
  fun a b => inferInstanceAs (Decidable (kEnc a ≤ kEnc b))

instance : IsTotal Key keyLe := ⟨fun a b => le_total (kEnc a) (kEnc b)⟩

instance : IsTrans Key keyLe := ⟨fun _ _ _ h1 h2 => le_trans h1 h2⟩

instance : IsAntisymm Key keyLe :=
  ⟨fun a b h1 h2 => by
    have h : kEnc a = kEnc b := le_antisymm h1 h2
    obtain ⟨⟨ay, am, ad⟩, ⟨ac⟩, ⟨ai⟩⟩ := a
    obtain ⟨⟨cy, cm, cd⟩, ⟨cc⟩, ⟨ci⟩⟩ := b
    simp only [kEnc, toLex_inj, Prod.mk.injEq] at h
    obtain ⟨⟨h1, h2, h3⟩, h4, h5⟩ := h
    simp_all⟩
/-- project.py lines 28–32: `df.groupby(['date','country','iso_alpha'],
as_index=False).agg({'confirmed':'sum','deaths':'sum','recovered':'sum'})`.
One output row per distinct key, keys sorted ascending (pandas
`sort=True` default); each statistic is summed per group, NaNs skipped
(an all-NaN group sums to 0, so the summed `recovered` is never null). -/
def aggRowFor (df : List Row) (k : Key) : AggRow :=
  let grp := df.filter fun r => decide (keyOf r = k)
  { date := k.1
    country := k.2.1
    iso_alpha := k.2.2
    confirmed := (grp.map Row.confirmed).sum
    deaths := (grp.map Row.deaths).sum
    recovered := some ((grp.filterMap Row.recovered).sum) }

def groupbySum (df : List Row) : List AggRow :=
  (List.insertionSort keyLe (df.map keyOf).dedup).map (aggRowFor df)

/-- The row filter `(df['date'] >= start_date) & (df['date'] <= end_date)`. -/
def inDateRange (s e : Date) (r : Row) : Bool :=
  decide (dateLe s r.date.date) && decide (dateLe r.date.date e)

/-- project.py lines 19–34 (`process_data`), with the in-place mutation of
the caller's dataframe made explicit: the first component is the caller's
dataframe after the `df['date'] = ...` assignment, the second the returned
aggregated table. -/
def process_data_state (df : List Row) (selected_countries : List String)
    (start_date end_date : Date) : List Row × List AggRow :=
  let df0 := df.map normalizeRow
  let df1 := df0.filter (inDateRange start_date end_date)
  let df2 := df1.filter fun r => selected_countries.contains r.country
  (df0, groupbySum df2)

/-- The value `process_data` returns to its caller. -/
def process_data (df : List Row) (selected_countries : List String)
    (start_date end_date : Date) : List AggRow :=
  (process_data_state df selected_countries start_date end_date).2

/-! ### Dashboard main (project.py lines 37–152) -/

/-- Day number of a date in the proleptic Gregorian calendar, relative to
1970-01-01 (the classical days-from-civil computation).  Python's
`date2 - date1` yields a timedelta whose `.days` equals the difference of
these day numbers. -/
def daysFromCivil (dt : Date) : Int :=
  let y : Nat := if dt.month ≤ 2 then dt.year - 1 else dt.year
  let era : Nat := y / 400
  let yoe : Nat := y % 400
  let mp : Nat := (dt.month + 9) % 12
  let doy : Nat := (153 * mp + 2) / 5 + dt.day - 1
  let doe : Nat := yoe * 365 + yoe / 4 - yoe / 100 + doy
  (era * 146097 + doe : Int) - 719468

/-- Python `(end_date - start_date).days` of project.py line 64. -/
def daysBetween (s e : Date) : Int := daysFromCivil e - daysFromCivil s

/-- The fill `aggregated_df['recovered'] = aggregated_df['recovered'].fillna(0)`
(project.py line 80). -/
def fillRecovered (adf : List AggRow) : List AggRow :=
  adf.map fun r => { r with recovered := some (r.recovered.getD 0) }

/-- pandas `Series.idxmax` scan: remembers the current best value and its
position, replacing it only on a strictly greater value, so the first
occurrence of the maximum wins. -/
def idxmaxGo : List Int → Nat → Int → Nat → Nat
  | [], _, _, bi => bi
  | y :: ys, i, bv, bi =>
      if bv < y then idxmaxGo ys (i + 1) y i else idxmaxGo ys (i + 1) bv bi

/-- pandas `series.idxmax()`: position of the first maximum; raises on an empty
series (modelled by `none`). -/
def idxmax : List Int → Option Nat
  | [] => none
  | x :: xs => some (idxmaxGo xs 1 x 0)

/-- pandas `series.max()`: `NaN` (here `none`) on an empty series. -/
def seriesMax : List Int → Option Int
  | [] => none
  | x :: xs => some (xs.foldl max x)

/-- One summary metric of project.py lines 83–90: the column maximum via
`.max()` paired with the `country` of the row found by `.idxmax()`. -/
def computeMetric (adf : List AggRow) (f : AggRow → Int) : Option (Int × String) :=
  match seriesMax (adf.map f), idxmax (adf.map f) with
  | some m, some i => some (m, ((adf[i]?).map AggRow.country).getD "")
  | _, _ => none

/-- Group key of the second `groupby` (project.py line 104). -/
def pairLe (a b : String × String) : Prop :=
  toLex (a.1.data, a.2.data) ≤ toLex (b.1.data, b.2.data)

instance : DecidableRel pairLe :=
  fun a b => inferInstanceAs (Decidable (_ ≤ _))

/-- project.py lines 104–108: `aggregated_df.groupby(['country','iso_alpha'],
as_index=False).agg(...)` — per-country totals for the choropleth. -/
def mapData (adf : List AggRow) : List (String × String × Int × Int × Int) :=
  (List.insertionSort pairLe (adf.map fun r => (r.country, r.iso_alpha)).dedup).map
    fun k =>
      let grp := adf.filter fun r => decide ((r.country, r.iso_alpha) = k)
      (k.1, k.2, (grp.map AggRow.confirmed).sum, (grp.map AggRow.deaths).sum,
        (grp.filterMap AggRow.recovered).sum)

/-- An observable action of the dashboard; `fileWrite` is the effect the
fetcher's `df.to_csv` would have — the dashboard never produces it. -/
inductive Effect where
  | title (s : String)
  | write (s : String)
  | errorMsg (s : String)
  | infoMsg (s : String)
  | metric (label : String) (value : Int) (delta : String)
  | choropleth (data : List (String × String × Int × Int × Int))
  | lineChart (chartTitle : String) (pts : List (Date × Int × String))
  | fileWrite (path : String)
deriving DecidableEq, Repr

def Effect.isFileWrite : Effect → Bool
  | .fileWrite _ => true
  | _ => false

def Effect.isRender : Effect → Bool
  | .metric _ _ _ => true
  | .choropleth _ => true
  | .lineChart _ _ => true
  | _ => false

/-- project.py lines 80–152, after the validation gates: the metric,
choropleth and line-chart renders of one interaction, computed from the
fillna'd aggregated table.  `Except.error` models the uncaught exception
pandas' `idxmax` raises on an empty aggregate. -/
def mainRender (adf : List AggRow) : Except String (List Effect) :=
  match computeMetric adf (fun r => r.confirmed),
        computeMetric adf (fun r => r.deaths),
        computeMetric adf (fun r => r.recovered.getD 0) with
  | some (mc, cc), some (md, cd), some (mr, cr) =>
      .ok
        [.metric "Highest Confirmed Cases" mc cc,
         .metric "Highest Deaths" md cd,
         .metric "Highest Recovered Cases" mr cr,
         .choropleth (mapData adf),
         .lineChart "Confirmed Cases Over Time"
           (adf.map fun r => (r.date, r.confirmed, r.country)),
         .lineChart "Deaths Over Time"
           (adf.map fun r => (r.date, r.deaths, r.country)),
         .lineChart "Recovered Cases Over Time"
           (adf.map fun r => (r.date, r.recovered.getD 0, r.country))]
  | _, _, _ => .error "attempt to get argmax of an empty sequence"

/-- project.py `main` (lines 37–152) for one user interaction, given the
loaded dataframe and the widget values: the static header, the three
validation gates in source order, then `process_data`, `fillna` and the
renders of `mainRender`. -/
def mainInteraction (df : List Row) (selected_countries : List String)
    (start_date end_date : Date) : Except String (List Effect) :=
  let header : List Effect :=
    [.title "COVID-19 Data Visualization",
     .write "Select a date range (maximum one year) and countries to compare COVID-19 statistics."]
  if daysBetween start_date end_date > 365 then
    .ok (header ++ [.errorMsg "Error: The date range must be no more than one year."])
  else if dateLt end_date start_date then
    .ok (header ++ [.errorMsg "Error: End date must be after start date."])
  else if selected_countries.isEmpty then
    .ok (header ++ [.infoMsg "Please select at least one country."])
  else
    (mainRender (fillRecovered
      (process_data df selected_countries start_date end_date))).map
      fun effs => header ++ effs

/-! ### The `region` CSV cell round trip (fetch.py line 39 / project.py lines 10–14)

fetch.py stores each report's `region` — a dict of the country metadata,
whose fields relevant to the dashboard (`name`, `iso`) are strings — in a
dataframe cell; `df.to_csv` writes the cell as Python's `str()` of the
dict, wrapped in CSV minimal quoting.  `load_data` reads the field back
with `pd.read_csv` (which undoes the CSV quoting) and parses it with
`ast.literal_eval`, then projects `['name']` and `['iso']`.  The dict is
modelled as its list of key/value items (string-valued; the fields the
dashboard projects are strings); `str()` of a string is modelled with
Python's quote choice (single quotes unless the string contains a single
quote and no double quote) and backslash escapes for the quote character,
backslashes, newline, carriage return and tab. -/

/-- Quote character `repr` picks for a string. -/
def pyQuote (s : List Char) : Char :=
  if s.contains '\'' && !(s.contains '"') then '"' else '\''

/-- Escape of one character inside a `q`-quoted Python string literal. -/
def escChar (q : Char) (c : Char) : List Char :=
  if c = '\\' then ['\\', '\\']
  else if c = q then ['\\', q]
  else if c = '\n' then ['\\', 'n']
  else if c = '\r' then ['\\', 'r']
  else if c = '\t' then ['\\', 't']
  else [c]

def escBody (q : Char) : List Char → List Char
  | [] => []
  | c :: cs => escChar q c ++ escBody q cs

/-- Python `repr` of a string (as `str()` of a dict renders its items). -/
def pyReprStr (s : String) : List Char :=
  let q := pyQuote s.data
  q :: (escBody q s.data ++ [q])

/-- Decoding of one backslash escape inside a Python string literal. -/
def unescChar (e : Char) : Option Char :=
  if e = '\\' then some '\\'
  else if e = '\'' then some '\''
  else if e = '"' then some '"'
  else if e = 'n' then some '\n'
  else if e = 'r' then some '\r'
  else if e = 't' then some '\t'
  else none

/-- Consumption by `ast.literal_eval` of a quoted string body up to the
closing quote `q`; returns the decoded characters and the remainder. -/
def parseStrBody (q : Char) : List Char → Option (List Char × List Char)
  | [] => none
  | c :: cs =>
      if c = q then some ([], cs)
      else if c = '\\' then
        match cs with
        | [] => none
        | e :: rest =>
            match unescChar e with
            | none => none
            | some u => (parseStrBody q rest).map fun p => (u :: p.1, p.2)
      else (parseStrBody q cs).map fun p => (c :: p.1, p.2)

/-- Parse one Python string literal (single- or double-quoted). -/
def parsePyStr (cs : List Char) : Option (List Char × List Char) :=
  match cs with
  | [] => none
  | q :: rest => if q = '\'' || q = '"' then parseStrBody q rest else none

/-- Python `str()` of one dict item: `repr(key): repr(value)`. -/
def encodePair (p : String × String) : List Char :=
  pyReprStr p.1 ++ ':' :: ' ' :: pyReprStr p.2

/-- Python `str()` of the dict items, separated by `, `. -/
def encodeItems : List (String × String) → List Char
  | [] => []
  | [p] => encodePair p
  | p :: ps => encodePair p ++ ',' :: ' ' :: encodeItems ps

/-- Python `str()` of the dict. -/
def pyReprDict (kvs : List (String × String)) : List Char :=
  '{' :: (encodeItems kvs ++ ['}'])

/-- Consumption by `ast.literal_eval` of `key: value` items up to the
closing brace (fuel-bounded; fuel `≥` item count suffices). -/
def parseItems : Nat → List Char → Option (List (String × String) × List Char)
  | 0, _ => none
  | fuel + 1, cs =>
      match parsePyStr cs with
      | none => none
      | some (k, rest1) =>
          match rest1 with
          | ':' :: ' ' :: rest2 =>
              match parsePyStr rest2 with
              | none => none
              | some (v, rest3) =>
                  match rest3 with
                  | ',' :: ' ' :: rest4 =>
                      (parseItems fuel rest4).map fun p => ((⟨k⟩, ⟨v⟩) :: p.1, p.2)
                  | '}' :: rest4 => some ([(⟨k⟩, ⟨v⟩)], rest4)
                  | _ => none
          | _ => none

/-- Model of `ast.literal_eval` on a string-valued dict literal (the safe literal
parser of project.py line 5: it evaluates literals only, never code). -/
def literal_eval_dict (cs : List Char) : Option (List (String × String)) :=
  match cs with
  | '{' :: rest =>
      if rest = ['}'] then some []
      else
        match parseItems rest.length rest with
        | some (ps, []) => some ps
        | _ => none
  | _ => none

/-- Does a CSV field need quoting under pandas' minimal quoting? -/
def csvSpecial (c : Char) : Bool := c = ',' || c = '"' || c = '\n' || c = '\r'

def csvEscape : List Char → List Char
  | [] => []
  | c :: cs => if c = '"' then '"' :: '"' :: csvEscape cs else c :: csvEscape cs

/-- How `df.to_csv` writes one field (minimal quoting, quotes doubled). -/
def csvEncodeField (s : List Char) : List Char :=
  if s.any csvSpecial then '"' :: (csvEscape s ++ ['"']) else s

/-- Consume a quoted CSV field body: doubled quotes decode to one quote, a
lone closing quote must end the field. -/
def csvUnescape : List Char → Option (List Char)
  | [] => none
  | c :: cs =>
      if c = '"' then
        match cs with
        | '"' :: rest => (csvUnescape rest).map fun t => '"' :: t
        | [] => some []
        | _ => none
      else (csvUnescape cs).map fun t => c :: t

/-- How `pd.read_csv` reads one field back. -/
def csvDecodeField (s : List Char) : List Char :=
  match s with
  | [] => []
  | c :: rest => if c = '"' then (csvUnescape rest).getD (c :: rest) else c :: rest

/-- The bytes fetch.py's `df.to_csv` puts in the CSV for the `region`
cell of a report record. -/
def fetchRegionCell (kvs : List (String × String)) : List Char :=
  csvEncodeField (pyReprDict kvs)

/-- project.py lines 13–14: what `load_data` derives from a region cell —
`ast.literal_eval(x)['name']` and `ast.literal_eval(x)['iso']` (applied to
the field text `pd.read_csv` recovered). -/
def load_data_region (cell : List Char) : Option (String × String) :=
  match literal_eval_dict (csvDecodeField cell) with
  | none => none
  | some d =>
      match d.lookup "name", d.lookup "iso" with
      | some n, some i => some (n, i)
      | _, _ => none


/-- The grouping key carried by an aggregated row. -/
def keyOfAgg (ar : AggRow) : Key := (ar.date, ar.country, ar.iso_alpha)

/-- The key-level filter corresponding to `process_data`'s two row filters:
date within `[s, e]` and country among the selected ones. -/
def keyKept (sel : List String) (s e : Date) (k : Key) : Bool :=
  (decide (dateLe s k.1) && decide (dateLe k.1 e)) && sel.contains k.2.1

/-- What it means for `computeMetric adf f` to deliver the column maximum
together with the country of the first row attaining it: the value bounds
the whole column, some row at position `i` holds it, that row's country is
reported, and every earlier row is strictly below it. -/
def metricIsFirstMax (adf : List AggRow) (f : AggRow → Int) : Prop :=
  ∃ (v : Int) (c : String) (i : Nat) (row : AggRow),
    computeMetric adf f = some (v, c) ∧
    (∀ r ∈ adf, f r ≤ v) ∧
    adf[i]? = some row ∧ f row = v ∧ c = row.country ∧
    ∀ j : Nat, j < i → ∀ rj, adf[j]? = some rj → f rj < v

/-! ### Theorems -/

theorem monthIdx_nextMonth (d : Date) : monthIdx (nextMonth d) = monthIdx d + 1 := by
  unfold nextMonth monthIdx
  by_cases h : d.month = 12 <;> simp [h] <;> omega

theorem validDate_nextMonth {d : Date} (h : validDate d) : validDate (nextMonth d) := by
  unfold validDate nextMonth at *
  by_cases h12 : d.month = 12 <;> simp [h12] <;> omega

theorem nextMonth_day (d : Date) : (nextMonth d).day = 1 := by
  unfold nextMonth; by_cases h : d.month = 12 <;> simp [h]

theorem dateLt_nextMonth {d : Date} (h : validDate d) : dateLt d (nextMonth d) := by
  unfold validDate at h
  unfold dateLt nextMonth
  by_cases h12 : d.month = 12 <;> simp [h12] <;> omega

theorem monthIdx_le_of_dateLe {a b : Date} (ha : validDate a) (hb : validDate b)
    (h : dateLe a b) : monthIdx a ≤ monthIdx b := by
  unfold validDate at ha hb
  unfold dateLe at h
  unfold monthIdx
  rcases h with h | ⟨hy, h⟩
  · nlinarith
  · omega

theorem dateLe_of_monthIdx_lt {a b : Date} (ha : validDate a) (hb : validDate b)
    (h : monthIdx a < monthIdx b) : dateLe a b := by
  unfold validDate at ha hb
  unfold monthIdx at h
  unfold dateLe
  rcases Nat.lt_trichotomy a.year b.year with hy | hy | hy
  · exact Or.inl hy
  · exact Or.inr ⟨hy, Or.inl (by omega)⟩
  · exfalso; nlinarith

/-- Any fuel at least the number of months spanned runs the loop to its
natural exit: the loop terminates by its own condition. -/
theorem fetchLoop_fuel_sufficient {e : Date} (he : validDate e) :
    ∀ n cur, validDate cur → monthIdx e + 1 - monthIdx cur ≤ n →
      fetchLoop n cur e = fetchDates cur e := by
  intro n
  induction n with
  | zero =>
      intro cur hcur hn
      unfold fetchDates
      have h0 : monthIdx e + 1 - monthIdx cur = 0 := Nat.le_zero.mp hn
      rw [h0]
  | succ n ih =>
      intro cur hcur hn
      unfold fetchDates
      by_cases hle : dateLe cur e
      · have hmi : monthIdx cur ≤ monthIdx e := monthIdx_le_of_dateLe hcur he hle
        have hfuel : monthIdx e + 1 - monthIdx cur = (monthIdx e + 1 - monthIdx (nextMonth cur)) + 1 := by
          rw [monthIdx_nextMonth]; omega
        rw [hfuel]
        show fetchLoop (n+1) cur e = fetchLoop ((monthIdx e + 1 - monthIdx (nextMonth cur)) + 1) cur e
        unfold fetchLoop
        simp only [if_pos hle]
        have h1 : fetchLoop n (nextMonth cur) e = fetchDates (nextMonth cur) e :=
          ih (nextMonth cur) (validDate_nextMonth hcur) (by rw [monthIdx_nextMonth]; omega)
        have h2 : fetchLoop (monthIdx e + 1 - monthIdx (nextMonth cur)) (nextMonth cur) e
            = fetchDates (nextMonth cur) e := rfl
        rw [h1, h2]
      · cases hk : monthIdx e + 1 - monthIdx cur with
        | zero =>
            show fetchLoop (n+1) cur e = fetchLoop 0 cur e
            unfold fetchLoop
            simp [hle]
        | succ k =>
            show fetchLoop (n+1) cur e = fetchLoop (k+1) cur e
            unfold fetchLoop
            simp [hle]

theorem same_month_dateLe {a b : Date} (hb : validDate b)
    (hmi : monthIdx a = monthIdx b) (hmb : a.month ≤ 12) (hma : 1 ≤ a.month)
    (hd : a.day ≤ b.day) : dateLe a b := by
  unfold monthIdx at hmi
  unfold validDate at hb
  unfold dateLe
  have hy : a.year = b.year := by nlinarith
  exact Or.inr ⟨hy, Or.inr ⟨by omega, hd⟩⟩

/-- The loop issues exactly one request per calendar month spanned. -/
theorem fetchDates_length {s e : Date} (hs : validDate s) (he : validDate e)
    (hle : dateLe s e) :
    (fetchDates s e).length = monthIdx e + 1 - monthIdx s := by
  have hgen : ∀ n cur, validDate cur → (cur.day = 1 ∨ dateLe cur e) →
      monthIdx e + 1 - monthIdx cur = n →
      (fetchLoop n cur e).length = n := by
    intro n
    induction n with
    | zero => intro cur _ _ _; rfl
    | succ n ih =>
        intro cur hcur hinv hn
        have hmi : monthIdx cur ≤ monthIdx e := by omega
        have hle' : dateLe cur e := by
          rcases Nat.lt_or_ge (monthIdx cur) (monthIdx e) with h | h
          · exact dateLe_of_monthIdx_lt hcur he h
          · have heq : monthIdx cur = monthIdx e := by omega
            rcases hinv with hd1 | hok
            · exact same_month_dateLe he heq hcur.2.1 hcur.1 (by
                have := he.2.2; omega)
            · exact hok
        unfold fetchLoop
        simp only [if_pos hle', List.length_cons]
        rw [ih (nextMonth cur) (validDate_nextMonth hcur) (Or.inl (nextMonth_day cur))
          (by rw [monthIdx_nextMonth]; omega)]
  exact hgen _ s hs (Or.inr hle) rfl

/-- The month indices of the requested dates are the consecutive run of
calendar months from the start month through the end month. -/
theorem fetchDates_monthIdx {s e : Date} (hs : validDate s) (he : validDate e)
    (hle : dateLe s e) :
    (fetchDates s e).map monthIdx
      = List.range' (monthIdx s) (monthIdx e + 1 - monthIdx s) := by
  have hgen : ∀ n cur, validDate cur → (cur.day = 1 ∨ dateLe cur e) →
      monthIdx e + 1 - monthIdx cur = n →
      (fetchLoop n cur e).map monthIdx = List.range' (monthIdx cur) n := by
    intro n
    induction n with
    | zero => intro cur _ _ _; rfl
    | succ n ih =>
        intro cur hcur hinv hn
        have hmi : monthIdx cur ≤ monthIdx e := by omega
        have hle' : dateLe cur e := by
          rcases Nat.lt_or_ge (monthIdx cur) (monthIdx e) with h | h
          · exact dateLe_of_monthIdx_lt hcur he h
          · have heq : monthIdx cur = monthIdx e := by omega
            rcases hinv with hd1 | hok
            · exact same_month_dateLe he heq hcur.2.1 hcur.1 (by
                have := he.2.2; omega)
            · exact hok
        unfold fetchLoop
        simp only [if_pos hle', List.map_cons, List.range'_succ]
        rw [ih (nextMonth cur) (validDate_nextMonth hcur) (Or.inl (nextMonth_day cur))
          (by rw [monthIdx_nextMonth]; omega), monthIdx_nextMonth]
  exact hgen _ s hs (Or.inr hle) rfl

/-- The first request of the loop is the literal start date. -/
theorem fetchDates_head {s e : Date} (hle : dateLe s e) (hs : validDate s)
    (he : validDate e) : (fetchDates s e).head? = some s := by
  have hfuel : 1 ≤ monthIdx e + 1 - monthIdx s := by
    have := monthIdx_le_of_dateLe hs he hle; omega
  unfold fetchDates
  cases hk : monthIdx e + 1 - monthIdx s with
  | zero => omega
  | succ k =>
      unfold fetchLoop
      simp [hle]

/-- Every request after the first is for the first day of a month. -/
theorem fetchDates_tail_day_one (s e : Date) :
    ∀ d ∈ (fetchDates s e).tail, d.day = 1 := by
  have hgen : ∀ n cur, ∀ d ∈ fetchLoop n cur e, d = cur ∨ d.day = 1 := by
    intro n
    induction n with
    | zero => intro cur d hd; simp [fetchLoop] at hd
    | succ n ih =>
        intro cur d hd
        unfold fetchLoop at hd
        by_cases hle : dateLe cur e
        · simp only [if_pos hle, List.mem_cons] at hd
          rcases hd with h | h
          · exact Or.inl h
          · rcases ih (nextMonth cur) d h with h' | h'
            · exact Or.inr (h' ▸ nextMonth_day cur)
            · exact Or.inr h'
        · simp [hle] at hd
  intro d hd
  unfold fetchDates at hd
  cases hk : monthIdx e + 1 - monthIdx s with
  | zero => rw [hk] at hd; simp [fetchLoop] at hd
  | succ k =>
      rw [hk] at hd
      unfold fetchLoop at hd
      by_cases hle : dateLe s e
      · simp only [if_pos hle, List.tail_cons] at hd
        rcases hgen k (nextMonth s) d hd with h | h
        · exact h ▸ nextMonth_day s
        · exact h
      · simp [hle] at hd

/-! ### Group-by lemmas (project.py lines 28–32) -/

theorem keyOfAgg_aggRowFor (df : List Row) (k : Key) :
    keyOfAgg (aggRowFor df k) = k := rfl

theorem groupbySum_keys (df : List Row) :
    (groupbySum df).map keyOfAgg = List.insertionSort keyLe (df.map keyOf).dedup := by
  unfold groupbySum
  rw [List.map_map]
  have h : keyOfAgg ∘ aggRowFor df = id := funext fun k => keyOfAgg_aggRowFor df k
  rw [h, List.map_id]

theorem groupbySum_sorted (df : List Row) :
    List.Sorted keyLe ((groupbySum df).map keyOfAgg) := by
  rw [groupbySum_keys]
  exact List.sorted_insertionSort keyLe _

theorem groupbySum_keys_nodup (df : List Row) :
    ((groupbySum df).map keyOfAgg).Nodup := by
  rw [groupbySum_keys]
  exact (List.perm_insertionSort keyLe _).nodup_iff.mpr (List.nodup_dedup _)

theorem groupbySum_mem_keys (df : List Row) (k : Key) :
    k ∈ (groupbySum df).map keyOfAgg ↔ k ∈ df.map keyOf := by
  rw [groupbySum_keys]
  rw [List.mem_insertionSort, List.mem_dedup]

theorem groupbySum_row_eq {df : List Row} {ar : AggRow} (h : ar ∈ groupbySum df) :
    ar = aggRowFor df (keyOfAgg ar) := by
  unfold groupbySum at h
  obtain ⟨k, _, rfl⟩ := List.mem_map.mp h
  rw [keyOfAgg_aggRowFor]

theorem sorted_nodup_ext {l₁ l₂ : List Key} (s₁ : List.Sorted keyLe l₁)
    (s₂ : List.Sorted keyLe l₂) (n₁ : l₁.Nodup) (n₂ : l₂.Nodup)
    (hm : ∀ k, k ∈ l₁ ↔ k ∈ l₂) : l₁ = l₂ :=
  List.eq_of_perm_of_sorted ((List.perm_ext_iff_of_nodup n₁ n₂).mpr hm) s₁ s₂

/-- Filtering the sorted key list of a group-by through a key predicate is
the same as grouping the pre-filtered rows. -/
theorem sortedKeys_filter (l : List Key) (pk : Key → Bool) :
    (List.insertionSort keyLe l.dedup).filter pk
      = List.insertionSort keyLe (l.filter pk).dedup := by
  apply sorted_nodup_ext
  · exact List.Pairwise.filter pk (List.sorted_insertionSort keyLe _)
  · exact List.sorted_insertionSort keyLe _
  · exact List.Nodup.filter pk
      ((List.perm_insertionSort keyLe _).nodup_iff.mpr (List.nodup_dedup _))
  · exact (List.perm_insertionSort keyLe _).nodup_iff.mpr (List.nodup_dedup _)
  · intro k
    simp only [List.mem_filter, List.mem_insertionSort, List.mem_dedup]

/-- Rows with a given key are unaffected by a row filter that its key
already passes, so the per-key sums agree with the filtered-first sums. -/
theorem aggRowFor_filter_eq (A : List Row) (p : Row → Bool) (pk : Key → Bool)
    (hfact : ∀ r, p r = pk (keyOf r)) (k : Key) (hk : pk k = true) :
    aggRowFor A k = aggRowFor (A.filter p) k := by
  unfold aggRowFor
  have hgrp : A.filter (fun r => decide (keyOf r = k))
      = (A.filter p).filter (fun r => decide (keyOf r = k)) := by
    rw [List.filter_filter]
    apply List.filter_congr
    intro r _
    by_cases hr : keyOf r = k
    · simp [hr, hfact r, hk]
    · simp [hr]
  rw [← hgrp]

/-- C4: Aggregation commutes with filtering — grouping the full normalized
table by (date, country, iso_alpha) with summation and then restricting to
the selected countries and date range gives exactly the table
`process_data` computes by filtering first, with the same per-key sums. -/
theorem agg_commutes_with_filter (df : List Row) (sel : List String) (s e : Date) :
    (groupbySum (df.map normalizeRow)).filter (fun ar => keyKept sel s e (keyOfAgg ar))
      = process_data df sel s e := by
  unfold process_data process_data_state
  simp only
  have hrows : ((df.map normalizeRow).filter (inDateRange s e)).filter
        (fun r => sel.contains r.country)
      = (df.map normalizeRow).filter (fun r => keyKept sel s e (keyOf r)) := by
    rw [List.filter_filter]
    apply List.filter_congr
    intro r _
    exact Bool.and_comm _ _
  rw [hrows]
  unfold groupbySum
  rw [List.filter_map]
  have hcomp : ((fun ar => keyKept sel s e (keyOfAgg ar)) ∘ aggRowFor (df.map normalizeRow))
      = fun k => keyKept sel s e k := rfl
  rw [hcomp, sortedKeys_filter, List.filter_map]
  have hcomp2 : ((fun k => keyKept sel s e k) ∘ keyOf)
      = fun r => keyKept sel s e (keyOf r) := rfl
  rw [hcomp2]
  apply List.map_congr_left
  intro k hk
  have hpk : keyKept sel s e k = true := by
    rw [List.mem_insertionSort, List.mem_dedup, List.mem_map] at hk
    obtain ⟨r, hr, rfl⟩ := hk
    exact (List.mem_filter.mp hr).2
  exact aggRowFor_filter_eq _ _ _ (fun _ => rfl) k hpk

/-- C1 (amended): `process_data` normalizes the date column, keeps exactly
the rows in the inclusive date range whose country is selected, and groups
them by (date, country, iso_alpha) with per-group sums; the output has one
row per distinct key — (date, country, iso_alpha), not (date, country) —
and is sorted by the grouping key. -/
theorem process_data_spec (df : List Row) (sel : List String) (s e : Date) :
    (∀ r : Row, (normalizeRow r).date = ⟨r.date.date, 0⟩) ∧
    (∀ r, r ∈ ((df.map normalizeRow).filter (inDateRange s e)).filter
        (fun r => sel.contains r.country) ↔
      ∃ r0 ∈ df, r = normalizeRow r0 ∧ dateLe s r.date.date ∧
        dateLe r.date.date e ∧ r.country ∈ sel) ∧
    List.Sorted keyLe ((process_data df sel s e).map keyOfAgg) ∧
    ((process_data df sel s e).map keyOfAgg).Nodup ∧
    (∀ k, k ∈ (process_data df sel s e).map keyOfAgg ↔
      k ∈ (((df.map normalizeRow).filter (inDateRange s e)).filter
        (fun r => sel.contains r.country)).map keyOf) ∧
    (∀ ar ∈ process_data df sel s e,
      ar = aggRowFor (((df.map normalizeRow).filter (inDateRange s e)).filter
        (fun r => sel.contains r.country)) (keyOfAgg ar)) := by
  refine ⟨fun r => rfl, ?_, groupbySum_sorted _, groupbySum_keys_nodup _,
    groupbySum_mem_keys _, fun ar har => groupbySum_row_eq har⟩
  intro r
  simp only [List.mem_filter, List.mem_map, inDateRange, Bool.and_eq_true,
    decide_eq_true_eq, List.contains_eq_any_beq, List.any_eq_true, beq_iff_eq]
  constructor
  · rintro ⟨⟨⟨r0, hr0, rfl⟩, hd1, hd2⟩, hc⟩
    exact ⟨r0, hr0, rfl, hd1, hd2, by simpa using hc⟩
  · rintro ⟨r0, hr0, rfl, hd1, hd2, hc⟩
    exact ⟨⟨⟨r0, hr0, rfl⟩, hd1, hd2⟩, by simpa using hc⟩

/-- C1 (counterexample to the claim as stated): with two rows that share
(date, country) but carry different `iso_alpha` codes, `process_data`
returns two rows for the single distinct (date, country) pair, so the
output does not have one row per distinct (date, country). -/
theorem process_data_two_rows_per_date_country :
    (process_data
      [⟨⟨⟨2020,4,1⟩,0⟩, "", 5, 1, some 2, "A", "AAA"⟩,
       ⟨⟨⟨2020,4,1⟩,0⟩, "", 7, 2, none, "A", "BBB"⟩]
      ["A"] ⟨2020,3,1⟩ ⟨2020,5,1⟩).length = 2 ∧
    ((process_data
      [⟨⟨⟨2020,4,1⟩,0⟩, "", 5, 1, some 2, "A", "AAA"⟩,
       ⟨⟨⟨2020,4,1⟩,0⟩, "", 7, 2, none, "A", "BBB"⟩]
      ["A"] ⟨2020,3,1⟩ ⟨2020,5,1⟩).map (fun ar => (ar.date, ar.country))).dedup.length
      = 1 := by decide

/-! ### idxmax lemmas (project.py lines 83–90) -/

theorem foldl_max_le : ∀ (xs : List Int) (x y : Int), y = x ∨ y ∈ xs →
    y ≤ xs.foldl max x := by
  intro xs
  induction xs with
  | nil => intro x y h; rcases h with rfl | h
           · exact le_refl _
           · simp at h
  | cons z zs ih =>
      intro x y h
      show y ≤ zs.foldl max (max x z)
      rcases h with rfl | h
      · exact le_trans (le_max_left _ z) (ih (max y z) _ (Or.inl rfl))
      · rcases List.mem_cons.mp h with rfl | h
        · exact le_trans (le_max_right x _) (ih (max x y) _ (Or.inl rfl))
        · exact ih _ _ (Or.inr h)

theorem foldl_max_mem : ∀ (xs : List Int) (x : Int),
    xs.foldl max x = x ∨ xs.foldl max x ∈ xs := by
  intro xs
  induction xs with
  | nil => intro x; exact Or.inl rfl
  | cons z zs ih =>
      intro x
      have hfold : List.foldl max x (z :: zs) = zs.foldl max (max x z) := rfl
      rcases ih (max x z) with h | h
      · rcases max_choice x z with hm | hm
        · exact Or.inl (by rw [hfold, h, hm])
        · exact Or.inr (by rw [hfold, h, hm]; exact List.mem_cons_self z zs)
      · exact Or.inr (by rw [hfold]; exact List.mem_cons_of_mem z h)

/-- Invariant-carrying specification of the `idxmax` scan: run on the tail
`ys` after a processed prefix `pre` whose running best is `bv` at position
`bi`, the scan returns the position of the first maximum of `pre ++ ys`. -/
theorem idxmaxGo_spec : ∀ (ys pre : List Int) (bv : Int) (bi : Nat),
    bi < pre.length → pre.getD bi 0 = bv →
    (∀ j < pre.length, pre.getD j 0 ≤ bv) →
    (∀ j < bi, pre.getD j 0 < bv) →
    idxmaxGo ys pre.length bv bi < (pre ++ ys).length ∧
    (∀ j < (pre ++ ys).length,
      (pre ++ ys).getD j 0 ≤ (pre ++ ys).getD (idxmaxGo ys pre.length bv bi) 0) ∧
    (∀ j < idxmaxGo ys pre.length bv bi,
      (pre ++ ys).getD j 0 < (pre ++ ys).getD (idxmaxGo ys pre.length bv bi) 0) := by
  intro ys
  induction ys with
  | nil =>
      intro pre bv bi hbi hbv hmax hfirst
      simp only [idxmaxGo, List.append_nil]
      refine ⟨hbi, ?_, ?_⟩
      · intro j hj
        rw [hbv]
        exact hmax j hj
      · intro j hj
        rw [hbv]
        exact hfirst j hj
  | cons y ys ih =>
      intro pre bv bi hbi hbv hmax hfirst
      have hassoc : pre ++ y :: ys = (pre ++ [y]) ++ ys := by simp
      have hlen : (pre ++ [y]).length = pre.length + 1 := by simp
      have hgety : (pre ++ [y]).getD pre.length 0 = y := by
        rw [List.getD_append_right _ _ _ _ (le_refl _)]
        simp
      have hgetpre : ∀ j, j < pre.length → (pre ++ [y]).getD j 0 = pre.getD j 0 :=
        fun j hj => List.getD_append _ _ _ _ hj
      show idxmaxGo (y :: ys) pre.length bv bi < _ ∧ _
      unfold idxmaxGo
      by_cases hlt : bv < y
      · rw [if_pos hlt, hassoc, ← hlen]
        refine ih (pre ++ [y]) y pre.length ?_ hgety ?_ ?_
        · rw [hlen]; omega
        · intro j hj
          rw [hlen] at hj
          rcases Nat.lt_or_ge j pre.length with hj' | hj'
          · rw [hgetpre j hj']
            exact le_of_lt (lt_of_le_of_lt (hmax j hj') hlt)
          · have hje : j = pre.length := by omega
            rw [hje, hgety]
        · intro j hj
          rw [hgetpre j hj]
          exact lt_of_le_of_lt (hmax j hj) hlt
      · rw [if_neg hlt, hassoc, ← hlen]
        refine ih (pre ++ [y]) bv bi ?_ ?_ ?_ ?_
        · rw [hlen]; omega
        · rw [hgetpre bi hbi]; exact hbv
        · intro j hj
          rw [hlen] at hj
          rcases Nat.lt_or_ge j pre.length with hj' | hj'
          · rw [hgetpre j hj']; exact hmax j hj'
          · have hje : j = pre.length := by omega
            rw [hje, hgety]
            exact le_of_not_lt hlt
        · intro j hj
          rw [hgetpre j (lt_trans hj hbi)]
          exact hfirst j hj

/-- The scan `idxmax` returns the position of the first maximum of the series. -/
theorem idxmax_spec (x : Int) (xs : List Int) :
    idxmaxGo xs 1 x 0 < (x :: xs).length ∧
    (∀ j < (x :: xs).length,
      (x :: xs).getD j 0 ≤ (x :: xs).getD (idxmaxGo xs 1 x 0) 0) ∧
    (∀ j < idxmaxGo xs 1 x 0,
      (x :: xs).getD j 0 < (x :: xs).getD (idxmaxGo xs 1 x 0) 0) := by
  have h := idxmaxGo_spec xs [x] x 0 (by simp) (by simp) (by
      intro j hj
      simp only [List.length_singleton] at hj
      have hj0 : j = 0 := by omega
      rw [hj0]
      simp) (by intro j hj; omega)
  simpa using h

/-- On a non-empty table `computeMetric` delivers the column maximum with
the country of the first row attaining it, for any numeric column `f`. -/
theorem computeMetric_first_max (adf : List AggRow) (hne : adf ≠ [])
    (f : AggRow → Int) : metricIsFirstMax adf f := by
  cases adf with
  | nil => exact absurd rfl hne
  | cons a rest =>
      set xs := (a :: rest).map f with hxs
      have hxs' : xs = f a :: rest.map f := by simp [hxs]
      set i := idxmaxGo (rest.map f) 1 (f a) 0 with hi
      have hspec := idxmax_spec (f a) (rest.map f)
      rw [← hxs'] at hspec
      obtain ⟨hilen, hmax, hfirst⟩ := hspec
      set m := (rest.map f).foldl max (f a) with hm
      -- the fold maximum coincides with the value at the idxmax position
      have hup : ∀ y ∈ xs, y ≤ m := by
        intro y hy
        rw [hxs'] at hy
        rcases List.mem_cons.mp hy with rfl | hy
        · exact foldl_max_le _ _ _ (Or.inl rfl)
        · exact foldl_max_le _ _ _ (Or.inr hy)
      have hmem : m ∈ xs := by
        rw [hxs']
        rcases foldl_max_mem (rest.map f) (f a) with h | h
        · exact h ▸ List.mem_cons_self _ _
        · exact List.mem_cons_of_mem _ h
      have hgeti_mem : xs.getD i 0 ∈ xs := by
        rw [List.getD_eq_getElem?_getD, List.getElem?_eq_getElem hilen, Option.getD_some]
        exact List.getElem_mem _
      have hval : xs.getD i 0 = m := by
        apply le_antisymm
        · exact hup _ hgeti_mem
        · obtain ⟨j, hj, hjv⟩ := List.mem_iff_getElem.mp hmem
          have : xs.getD j 0 = m := by
            rw [List.getD_eq_getElem?_getD, List.getElem?_eq_getElem hj, Option.getD_some, hjv]
          rw [← this]
          exact hmax j hj
      -- the row at position i
      have hi_lt : i < (a :: rest).length := by
        have := hilen
        rwa [hxs, List.length_map] at this
      obtain ⟨row, hrow⟩ : ∃ row, (a :: rest)[i]? = some row :=
        ⟨(a :: rest)[i], List.getElem?_eq_getElem hi_lt⟩
      have hfrow : f row = m := by
        have h1 : xs[i]? = some (f row) := by
          rw [hxs, List.getElem?_map, hrow]
          rfl
        have h2 : xs.getD i 0 = f row := by
          rw [List.getD_eq_getElem?_getD, h1, Option.getD_some]
        rw [← h2, hval]
      refine ⟨m, row.country, i, row, ?_, ?_, hrow, hfrow, rfl, ?_⟩
      · have hcm : computeMetric (a :: rest) f
            = some (m, (((a :: rest)[i]?).map AggRow.country).getD "") := rfl
        rw [hcm, hrow]
        rfl
      · intro r hr
        exact hup (f r) (by rw [hxs]; exact List.mem_map_of_mem f hr)
      · intro j hj rj hrj
        have hjxs : xs[j]? = some (f rj) := by
          rw [hxs, List.getElem?_map, hrj]
          rfl
        have hjlt : j < xs.length := by
          rw [hxs, List.length_map]
          exact (List.getElem?_eq_some_iff.mp hrj).1
        have : xs.getD j 0 < xs.getD i 0 := hfirst j hj
        rw [hval] at this
        rw [List.getD_eq_getElem?_getD, hjxs, Option.getD_some] at this
        exact this

/-- C7: for every non-empty aggregated table, the dashboard's three summary
metrics each show the single column maximum together with the country of
the row the maximum-index lookup finds first. -/
theorem dashboard_metrics (adf : List AggRow) (hne : adf ≠ []) :
    metricIsFirstMax adf (fun r => r.confirmed) ∧
    metricIsFirstMax adf (fun r => r.deaths) ∧
    metricIsFirstMax adf (fun r => r.recovered.getD 0) :=
  ⟨computeMetric_first_max adf hne _, computeMetric_first_max adf hne _,
   computeMetric_first_max adf hne _⟩

/-! ### Fetcher claim theorems -/

/-- C2: over any inclusive date range the fetch loop issues exactly one
request per calendar month spanned — the first for the literal start date,
each later one for the first day of a month, one per consecutive month —
and on 2020-03-09..2020-05-01 it issues exactly the three requests
2020-03-09, 2020-04-01, 2020-05-01. -/
theorem fetcher_one_request_per_month (s e : Date) (hs : validDate s)
    (he : validDate e) (hle : dateLe s e) :
    (fetchDates s e).length = monthIdx e + 1 - monthIdx s ∧
    (fetchDates s e).head? = some s ∧
    (∀ d ∈ (fetchDates s e).tail, d.day = 1) ∧
    (fetchDates s e).map monthIdx
      = List.range' (monthIdx s) (monthIdx e + 1 - monthIdx s) ∧
    fetchDates ⟨2020,3,9⟩ ⟨2020,5,1⟩ = [⟨2020,3,9⟩, ⟨2020,4,1⟩, ⟨2020,5,1⟩] :=
  ⟨fetchDates_length hs he hle, fetchDates_head hle hs he,
   fetchDates_tail_day_one s e, fetchDates_monthIdx hs he hle, by decide⟩

theorem fetcher_one_request_per_month_witness :
    validDate ⟨2020,3,9⟩ ∧ validDate ⟨2020,5,1⟩ ∧ dateLe ⟨2020,3,9⟩ ⟨2020,5,1⟩ ∧
    (fetchDates ⟨2020,3,9⟩ ⟨2020,5,1⟩).length = 3 :=
  ⟨by decide, by decide, by decide,
    ((fetcher_one_request_per_month ⟨2020,3,9⟩ ⟨2020,5,1⟩ (by decide) (by decide)
      (by decide)).1).trans (by decide)⟩

/-- C8 (counterexample to the claim as stated): the loop's first request is
the literal start date 2020-03-09, not day 1 of the start month — no
request is ever issued for 2020-03-01. -/
theorem fetch_start_is_literal_date :
    (fetchDates ⟨2020,3,9⟩ ⟨2020,5,1⟩).head? = some ⟨2020,3,9⟩ ∧
    (⟨2020,3,9⟩ : Date).day ≠ 1 ∧
    ∀ d ∈ fetchDates ⟨2020,3,9⟩ ⟨2020,5,1⟩, d ≠ ⟨2020,3,1⟩ := by decide

/-- C8 (amended): the stepping starts at the literal start date; each step
advances to January 1 of the next year when the month is December and to
day 1 of the next month otherwise, yielding exactly one sampled date per
calendar month in the range. -/
theorem fetch_stepping_amended (s e : Date) (hs : validDate s)
    (he : validDate e) (hle : dateLe s e) :
    (fetchDates s e).head? = some s ∧
    (∀ d : Date, nextMonth d
      = if d.month = 12 then ⟨d.year + 1, 1, 1⟩ else ⟨d.year, d.month + 1, 1⟩) ∧
    (∀ d ∈ (fetchDates s e).tail, d.day = 1) ∧
    (fetchDates s e).map monthIdx
      = List.range' (monthIdx s) (monthIdx e + 1 - monthIdx s) :=
  ⟨fetchDates_head hle hs he, fun _ => rfl, fetchDates_tail_day_one s e,
   fetchDates_monthIdx hs he hle⟩

theorem fetch_stepping_amended_witness :
    validDate ⟨2020,11,9⟩ ∧ validDate ⟨2021,2,1⟩ ∧ dateLe ⟨2020,11,9⟩ ⟨2021,2,1⟩ ∧
    (fetchDates ⟨2020,11,9⟩ ⟨2021,2,1⟩).head? = some ⟨2020,11,9⟩ :=
  ⟨by decide, by decide, by decide,
    (fetch_stepping_amended ⟨2020,11,9⟩ ⟨2021,2,1⟩ (by decide) (by decide) (by decide)).1⟩

/-- C9: the month-stepping loop terminates — every step strictly increases
the current date, and the loop reaches its natural exit within the month
count of the range: giving it any extra fuel changes nothing. -/
theorem fetch_loop_terminates (s e : Date) (hs : validDate s) (he : validDate e) :
    (∀ cur, validDate cur → dateLt cur (nextMonth cur)) ∧
    (∀ extra : Nat, fetchLoop (monthIdx e + 1 - monthIdx s + extra) s e
      = fetchDates s e) :=
  ⟨fun _ hc => dateLt_nextMonth hc,
   fun extra => fetchLoop_fuel_sufficient he _ s hs (by omega)⟩

theorem fetch_loop_terminates_witness :
    validDate ⟨2020,3,9⟩ ∧ validDate ⟨2023,3,9⟩ ∧
    fetchLoop (monthIdx ⟨2023,3,9⟩ + 1 - monthIdx ⟨2020,3,9⟩ + 1000) ⟨2020,3,9⟩ ⟨2023,3,9⟩
      = fetchDates ⟨2020,3,9⟩ ⟨2023,3,9⟩ :=
  ⟨by decide, by decide,
    (fetch_loop_terminates ⟨2020,3,9⟩ ⟨2023,3,9⟩ (by decide) (by decide)).2 1000⟩

/-! ### Dashboard claim theorems -/

/-- C3: when the selected range exceeds 365 days, or start is after end, or
no country is selected, `main` shows one user-visible message after the
static header and returns — no aggregation output, no metric, no map, no
chart, and no exception. -/
theorem main_validation (df : List Row) (sel : List String) (s e : Date)
    (h : daysBetween s e > 365 ∨ dateLt e s ∨ sel = []) :
    ∃ msg, mainInteraction df sel s e
        = .ok [.title "COVID-19 Data Visualization",
               .write "Select a date range (maximum one year) and countries to compare COVID-19 statistics.",
               msg] ∧
      ((∃ t, msg = Effect.errorMsg t) ∨ (∃ t, msg = Effect.infoMsg t)) ∧
      (∀ x ∈ [Effect.title "COVID-19 Data Visualization",
              Effect.write "Select a date range (maximum one year) and countries to compare COVID-19 statistics.",
              msg], x.isRender = false) := by
  unfold mainInteraction
  by_cases h1 : daysBetween s e > 365
  · rw [if_pos h1]
    exact ⟨.errorMsg "Error: The date range must be no more than one year.",
      rfl, Or.inl ⟨_, rfl⟩, by decide⟩
  · rw [if_neg h1]
    by_cases h2 : dateLt e s
    · rw [if_pos h2]
      exact ⟨.errorMsg "Error: End date must be after start date.",
        rfl, Or.inl ⟨_, rfl⟩, by decide⟩
    · rw [if_neg h2]
      have h3 : sel = [] := by tauto
      subst h3
      exact ⟨.infoMsg "Please select at least one country.",
        rfl, Or.inr ⟨_, rfl⟩, by decide⟩

theorem main_validation_witness :
    (daysBetween ⟨2020,3,9⟩ ⟨2023,3,9⟩ > 365 ∨ dateLt ⟨2023,3,9⟩ ⟨2020,3,9⟩ ∨
      (["France"] : List String) = []) ∧
    ∃ msg, mainInteraction [] ["France"] ⟨2020,3,9⟩ ⟨2023,3,9⟩
        = .ok [.title "COVID-19 Data Visualization",
               .write "Select a date range (maximum one year) and countries to compare COVID-19 statistics.",
               msg] ∧
      ((∃ t, msg = Effect.errorMsg t) ∨ (∃ t, msg = Effect.infoMsg t)) ∧
      (∀ x ∈ [Effect.title "COVID-19 Data Visualization",
              Effect.write "Select a date range (maximum one year) and countries to compare COVID-19 statistics.",
              msg], x.isRender = false) :=
  ⟨Or.inl (by decide),
   main_validation [] ["France"] ⟨2020,3,9⟩ ⟨2023,3,9⟩ (Or.inl (by decide))⟩

/-- Inverting the two row filters of `process_data`: every surviving row is
the normalization of an input row. -/
theorem mem_filtered_of_mem {df : List Row} {sel : List String} {s e : Date} {r : Row}
    (hr : r ∈ ((df.map normalizeRow).filter (inDateRange s e)).filter
      (fun r => sel.contains r.country)) :
    ∃ r0 ∈ df, r = normalizeRow r0 := by
  have h1 := (List.mem_filter.mp hr).1
  have h2 := (List.mem_filter.mp h1).1
  obtain ⟨r0, hr0, rfl⟩ := List.mem_map.mp h2
  exact ⟨r0, hr0, rfl⟩

/-- C6: with count inputs (no negative `recovered` values), every row of
the aggregated table has a non-null, non-negative `recovered`, equal to 0
whenever every input row's `recovered` is null; the `fillna(0)` step in
`main` preserves this. -/
theorem recovered_non_null_nonneg (df : List Row) (sel : List String) (s e : Date)
    (hnn : ∀ r ∈ df, ∀ v : Int, r.recovered = some v → 0 ≤ v) :
    (∀ ar ∈ process_data df sel s e, ∃ v : Int, ar.recovered = some v ∧ 0 ≤ v ∧
      ((∀ r ∈ df, r.recovered = none) → v = 0)) ∧
    (∀ ar ∈ fillRecovered (process_data df sel s e),
      ∃ v : Int, ar.recovered = some v ∧ 0 ≤ v) := by
  have hmain : ∀ ar ∈ process_data df sel s e, ∃ v : Int, ar.recovered = some v ∧ 0 ≤ v ∧
      ((∀ r ∈ df, r.recovered = none) → v = 0) := by
    intro ar har
    have hrow := groupbySum_row_eq har
    set frows := ((df.map normalizeRow).filter (inDateRange s e)).filter
      (fun r => sel.contains r.country) with hfrows
    set grp := frows.filter (fun r => decide (keyOf r = keyOfAgg ar)) with hgrp
    refine ⟨(grp.filterMap Row.recovered).sum, by rw [hrow]; rfl, ?_, ?_⟩
    · apply List.sum_nonneg
      intro x hx
      obtain ⟨r, hrmem, hrx⟩ := List.mem_filterMap.mp hx
      have hrfrows : r ∈ frows := (List.mem_filter.mp hrmem).1
      obtain ⟨r0, hr0, rfl⟩ := mem_filtered_of_mem hrfrows
      exact hnn r0 hr0 x hrx
    · intro hall
      have hnil : grp.filterMap Row.recovered = [] := by
        rw [List.filterMap_eq_nil_iff]
        intro r hrmem
        have hrfrows : r ∈ frows := (List.mem_filter.mp hrmem).1
        obtain ⟨r0, hr0, rfl⟩ := mem_filtered_of_mem hrfrows
        exact hall r0 hr0
      rw [hnil]
      rfl
  refine ⟨hmain, ?_⟩
  intro ar har
  obtain ⟨a, ha, rfl⟩ := List.mem_map.mp har
  obtain ⟨v, hv, hv0, _⟩ := hmain a ha
  exact ⟨a.recovered.getD 0, rfl, by rw [hv]; exact hv0⟩

theorem recovered_non_null_nonneg_witness :
    (∀ r ∈ [(⟨⟨⟨2020,4,1⟩,0⟩, "", 5, 1, none, "A", "AAA"⟩ : Row)],
      ∀ v : Int, r.recovered = some v → 0 ≤ v) ∧
    (∀ ar ∈ process_data [⟨⟨⟨2020,4,1⟩,0⟩, "", 5, 1, none, "A", "AAA"⟩]
        ["A"] ⟨2020,3,1⟩ ⟨2020,5,1⟩,
      ∃ v : Int, ar.recovered = some v ∧ 0 ≤ v ∧
        ((∀ r ∈ [(⟨⟨⟨2020,4,1⟩,0⟩, "", 5, 1, none, "A", "AAA"⟩ : Row)],
          r.recovered = none) → v = 0)) :=
  ⟨by decide,
   (recovered_non_null_nonneg [⟨⟨⟨2020,4,1⟩,0⟩, "", 5, 1, none, "A", "AAA"⟩]
      ["A"] ⟨2020,3,1⟩ ⟨2020,5,1⟩ (by decide)).1⟩

/-- C10: `process_data` mutates the caller's dataframe in place — its
`date` column is normalized to calendar-date granularity — while every
other column of every row is untouched, and no dashboard interaction ever
produces a file write. -/
theorem process_data_frame_effect (df : List Row) (sel : List String) (s e : Date) :
    (process_data_state df sel s e).1 = df.map normalizeRow ∧
    (∀ r : Row, (normalizeRow r).date = ⟨r.date.date, 0⟩ ∧
      (normalizeRow r).region = r.region ∧
      (normalizeRow r).confirmed = r.confirmed ∧
      (normalizeRow r).deaths = r.deaths ∧
      (normalizeRow r).recovered = r.recovered ∧
      (normalizeRow r).country = r.country ∧
      (normalizeRow r).iso_alpha = r.iso_alpha) ∧
    (∀ res, mainInteraction df sel s e = .ok res →
      ∀ x ∈ res, x.isFileWrite = false) := by
  refine ⟨rfl, fun r => ⟨rfl, rfl, rfl, rfl, rfl, rfl, rfl⟩, ?_⟩
  intro res hres x hx
  unfold mainInteraction at hres
  by_cases h1 : daysBetween s e > 365
  · rw [if_pos h1] at hres
    cases hres
    simp only [List.cons_append, List.nil_append, List.mem_cons,
      List.not_mem_nil, or_false] at hx
    rcases hx with rfl | rfl | rfl <;> rfl
  · rw [if_neg h1] at hres
    by_cases h2 : dateLt e s
    · rw [if_pos h2] at hres
      cases hres
      simp only [List.cons_append, List.nil_append, List.mem_cons,
        List.not_mem_nil, or_false] at hx
      rcases hx with rfl | rfl | rfl <;> rfl
    · rw [if_neg h2] at hres
      by_cases h3 : sel.isEmpty = true
      · rw [if_pos h3] at hres
        cases hres
        simp only [List.cons_append, List.nil_append, List.mem_cons,
          List.not_mem_nil, or_false] at hx
        rcases hx with rfl | rfl | rfl <;> rfl
      · rw [if_neg h3] at hres
        cases hmr : mainRender (fillRecovered (process_data df sel s e)) with
        | error msg =>
            rw [hmr] at hres
            exact absurd hres (by simp [Except.map])
        | ok effs =>
            rw [hmr] at hres
            simp only [Except.map] at hres
            cases hres
            rcases List.mem_append.mp hx with hx' | hx'
            · simp only [List.mem_cons, List.not_mem_nil, or_false] at hx'
              rcases hx' with rfl | rfl <;> rfl
            · unfold mainRender at hmr
              split at hmr
              · cases hmr
                simp only [List.mem_cons, List.not_mem_nil, or_false] at hx'
                rcases hx' with rfl | rfl | rfl | rfl | rfl | rfl | rfl <;> rfl
              · exact absurd hmr (by simp)

/-! ### Round-trip lemmas for the `region` CSV cell (C5) -/

theorem pyQuote_or (s : List Char) : pyQuote s = '\'' ∨ pyQuote s = '"' := by
  unfold pyQuote
  by_cases h : s.contains '\'' && !(s.contains '"')
  · rw [if_pos h]
    exact Or.inr rfl
  · rw [if_neg h]
    exact Or.inl rfl

theorem parse_escBody (q : Char) (hq : q = '\'' ∨ q = '"') :
    ∀ (s rest : List Char), parseStrBody q (escBody q s ++ q :: rest) = some (s, rest) := by
  have hqbs : ('\\' : Char) ≠ q := by rcases hq with rfl | rfl <;> decide
  have hnq : ('\n' : Char) ≠ q := by rcases hq with rfl | rfl <;> decide
  have hrq : ('\r' : Char) ≠ q := by rcases hq with rfl | rfl <;> decide
  have htq : ('\t' : Char) ≠ q := by rcases hq with rfl | rfl <;> decide
  have huq : unescChar q = some q := by rcases hq with rfl | rfl <;> decide
  intro s
  induction s with
  | nil =>
      intro rest
      show parseStrBody q (q :: rest) = some ([], rest)
      rw [parseStrBody.eq_def]
      simp
  | cons c cs ih =>
      intro rest
      have hesc : escBody q (c :: cs) = escChar q c ++ escBody q cs := rfl
      rw [hesc, List.append_assoc]
      by_cases h1 : c = '\\'
      · subst h1
        have he : escChar q '\\' = ['\\', '\\'] := by simp [escChar]
        rw [he]
        show parseStrBody q ('\\' :: '\\' :: (escBody q cs ++ q :: rest)) = _
        rw [parseStrBody.eq_def]
        simp [hqbs, unescChar, ih]
      · by_cases h2 : c = q
        · subst h2
          have he : escChar c c = ['\\', c] := by
            unfold escChar
            rw [if_neg (fun hh => hqbs hh.symm), if_pos rfl]
          rw [he]
          show parseStrBody c ('\\' :: c :: (escBody c cs ++ c :: rest)) = _
          rw [parseStrBody.eq_def]
          simp [hqbs, huq, ih]
        · by_cases h3 : c = '\n'
          · subst h3
            have he : escChar q '\n' = ['\\', 'n'] := by
              unfold escChar
              rw [if_neg (by decide), if_neg (fun hh => hnq hh), if_pos rfl]
            rw [he]
            show parseStrBody q ('\\' :: 'n' :: (escBody q cs ++ q :: rest)) = _
            rw [parseStrBody.eq_def]
            simp [hqbs, unescChar, ih]
          · by_cases h4 : c = '\r'
            · subst h4
              have he : escChar q '\r' = ['\\', 'r'] := by
                unfold escChar
                rw [if_neg (by decide), if_neg (fun hh => hrq hh), if_neg (by decide),
                  if_pos rfl]
              rw [he]
              show parseStrBody q ('\\' :: 'r' :: (escBody q cs ++ q :: rest)) = _
              rw [parseStrBody.eq_def]
              simp [hqbs, unescChar, ih]
            · by_cases h5 : c = '\t'
              · subst h5
                have he : escChar q '\t' = ['\\', 't'] := by
                  unfold escChar
                  rw [if_neg (by decide), if_neg (fun hh => htq hh), if_neg (by decide),
                    if_neg (by decide), if_pos rfl]
                rw [he]
                show parseStrBody q ('\\' :: 't' :: (escBody q cs ++ q :: rest)) = _
                rw [parseStrBody.eq_def]
                simp [hqbs, unescChar, ih]
              · have he : escChar q c = [c] := by
                  unfold escChar
                  rw [if_neg h1, if_neg h2, if_neg h3, if_neg h4, if_neg h5]
                rw [he]
                show parseStrBody q (c :: (escBody q cs ++ q :: rest)) = _
                rw [parseStrBody.eq_def]
                simp [h1, h2, ih]

theorem parse_pyReprStr (s : String) (rest : List Char) :
    parsePyStr (pyReprStr s ++ rest) = some (s.data, rest) := by
  have hq := pyQuote_or s.data
  show parsePyStr ((pyQuote s.data :: (escBody (pyQuote s.data) s.data
    ++ [pyQuote s.data])) ++ rest) = some (s.data, rest)
  rw [List.cons_append, List.append_assoc, List.singleton_append]
  show (if pyQuote s.data = '\'' || pyQuote s.data = '"' then
    parseStrBody (pyQuote s.data) (escBody (pyQuote s.data) s.data
      ++ pyQuote s.data :: rest) else none) = some (s.data, rest)
  have hcond : (pyQuote s.data = '\'' || pyQuote s.data = '"') = true := by
    rcases hq with h | h <;> simp [h]
  rw [hcond, if_pos rfl]
  exact parse_escBody _ hq s.data rest

theorem parseItems_encode :
    ∀ (kvs : List (String × String)) (p : String × String) (rest : List Char)
      (fuel : Nat), kvs.length + 1 ≤ fuel →
      parseItems fuel (encodeItems (p :: kvs) ++ '}' :: rest) = some (p :: kvs, rest) := by
  intro kvs
  induction kvs with
  | nil =>
      intro p rest fuel hfuel
      cases fuel with
      | zero => omega
      | succ f =>
          obtain ⟨k, v⟩ := p
          have he : encodeItems [(k, v)] ++ '}' :: rest
              = pyReprStr k ++ (':' :: ' ' :: (pyReprStr v ++ '}' :: rest)) := by
            show (pyReprStr k ++ ':' :: ' ' :: pyReprStr v) ++ '}' :: rest = _
            rw [List.append_assoc]
            rfl
          rw [he]
          unfold parseItems
          rw [parse_pyReprStr]
          simp only []
          rw [parse_pyReprStr]
          rfl
  | cons p' kvs' ih =>
      intro p rest fuel hfuel
      cases fuel with
      | zero => omega
      | succ f =>
          obtain ⟨k, v⟩ := p
          have he : encodeItems ((k, v) :: p' :: kvs') ++ '}' :: rest
              = pyReprStr k ++ (':' :: ' ' :: (pyReprStr v
                ++ ',' :: ' ' :: (encodeItems (p' :: kvs') ++ '}' :: rest))) := by
            show (encodePair (k, v) ++ ',' :: ' ' :: encodeItems (p' :: kvs'))
              ++ '}' :: rest = _
            show ((pyReprStr k ++ ':' :: ' ' :: pyReprStr v)
              ++ ',' :: ' ' :: encodeItems (p' :: kvs')) ++ '}' :: rest = _
            rw [List.append_assoc, List.append_assoc]
            rfl
          rw [he]
          unfold parseItems
          rw [parse_pyReprStr]
          simp only []
          rw [parse_pyReprStr]
          simp only []
          rw [ih p' rest f (by simp only [List.length_cons] at hfuel; omega)]
          rfl

theorem pyReprStr_len (s : String) : 2 ≤ (pyReprStr s).length := by
  show 2 ≤ (pyQuote s.data :: (escBody (pyQuote s.data) s.data
    ++ [pyQuote s.data])).length
  simp

theorem encodeItems_len : ∀ (l : List (String × String)), l ≠ [] →
    l.length ≤ (encodeItems l).length := by
  intro l
  induction l with
  | nil => intro h; exact absurd rfl h
  | cons p ps ih =>
      intro _
      cases ps with
      | nil =>
          have h1 := pyReprStr_len p.1
          have h2 := pyReprStr_len p.2
          show 1 ≤ (pyReprStr p.1 ++ ':' :: ' ' :: pyReprStr p.2).length
          simp only [List.length_append, List.length_cons]
          omega
      | cons p' ps' =>
          have hrec := ih (by simp)
          have h1 := pyReprStr_len p.1
          have h2 := pyReprStr_len p.2
          show (p :: p' :: ps').length
            ≤ ((pyReprStr p.1 ++ ':' :: ' ' :: pyReprStr p.2)
              ++ ',' :: ' ' :: encodeItems (p' :: ps')).length
          simp only [List.length_append, List.length_cons] at hrec ⊢
          omega

theorem literal_eval_pyReprDict (kvs : List (String × String)) :
    literal_eval_dict (pyReprDict kvs) = some kvs := by
  cases kvs with
  | nil => decide
  | cons p kvs' =>
      have hlen : (p :: kvs').length ≤ (encodeItems (p :: kvs')).length :=
        encodeItems_len _ (by simp)
      have heq : ∀ X : List Char, literal_eval_dict ('{' :: X)
          = if X = ['}'] then some []
            else match parseItems X.length X with
              | some (ps, []) => some ps
              | _ => none := fun X => rfl
      show literal_eval_dict ('{' :: (encodeItems (p :: kvs') ++ ['}'])) = _
      rw [heq]
      have hne : encodeItems (p :: kvs') ++ ['}'] ≠ ['}'] := by
        intro h
        have := congrArg List.length h
        simp only [List.length_append, List.length_cons, List.length_nil] at this
        simp only [List.length_cons] at hlen
        omega
      rw [if_neg hne]
      have hfuel : kvs'.length + 1 ≤ (encodeItems (p :: kvs') ++ ['}']).length := by
        simp only [List.length_append, List.length_cons, List.length_nil]
        simp only [List.length_cons] at hlen
        omega
      have hsplit : encodeItems (p :: kvs') ++ ['}']
          = encodeItems (p :: kvs') ++ '}' :: ([] : List Char) := rfl
      rw [hsplit] at hfuel ⊢
      rw [parseItems_encode kvs' p [] _ hfuel]

theorem csvUnescape_escape : ∀ s : List Char,
    csvUnescape (csvEscape s ++ ['"']) = some s := by
  intro s
  induction s with
  | nil =>
      show csvUnescape ['"'] = some []
      rw [csvUnescape.eq_def]
      simp
  | cons c cs ih =>
      by_cases h : c = '"'
      · subst h
        show csvUnescape ('"' :: '"' :: (csvEscape cs ++ ['"'])) = _
        rw [csvUnescape.eq_def]
        simp [ih]
      · show csvUnescape ((if c = '"' then '"' :: '"' :: csvEscape cs
          else c :: csvEscape cs) ++ ['"']) = _
        rw [if_neg h]
        show csvUnescape (c :: (csvEscape cs ++ ['"'])) = _
        rw [csvUnescape.eq_def]
        simp [h, ih]

theorem csv_roundtrip (s : List Char) : csvDecodeField (csvEncodeField s) = s := by
  have heq : ∀ (c : Char) (rest : List Char), csvDecodeField (c :: rest)
      = if c = '"' then (csvUnescape rest).getD (c :: rest) else c :: rest :=
    fun c rest => rfl
  unfold csvEncodeField
  by_cases ha : s.any csvSpecial
  · rw [if_pos ha]
    show csvDecodeField ('"' :: (csvEscape s ++ ['"'])) = s
    rw [heq, if_pos rfl, csvUnescape_escape]
    rfl
  · rw [if_neg ha]
    cases s with
    | nil => rfl
    | cons c cs =>
        have hc : ¬c = '"' := by
          intro hc
          apply ha
          simp [List.any_cons, csvSpecial, hc]
        rw [heq, if_neg hc]

/-- C5: a report record's `region` cell as written by the fetcher, when
read back from the CSV and parsed with the safe literal parser, reproduces
the original country `name` and `iso` code in the derived columns. -/
theorem region_cell_roundtrip (kvs : List (String × String)) (name iso : String)
    (hname : kvs.lookup "name" = some name) (hiso : kvs.lookup "iso" = some iso) :
    load_data_region (fetchRegionCell kvs) = some (name, iso) := by
  unfold load_data_region fetchRegionCell
  rw [csv_roundtrip, literal_eval_pyReprDict]
  simp only []
  rw [hname, hiso]

theorem region_cell_roundtrip_witness :
    ([("iso", "CHN"), ("name", "China")].lookup "name" = some "China") ∧
    ([("iso", "CHN"), ("name", "China")].lookup "iso" = some "CHN") ∧
    load_data_region (fetchRegionCell [("iso", "CHN"), ("name", "China")])
      = some ("China", "CHN") :=
  ⟨by decide, by decide,
   region_cell_roundtrip [("iso", "CHN"), ("name", "China")] "China" "CHN"
     (by decide) (by decide)⟩

theorem process_data_spec_witness :
    ((process_data [⟨⟨⟨2020,4,1⟩,0⟩, "", 5, 1, some 2, "A", "AAA"⟩]
      ["A"] ⟨2020,3,1⟩ ⟨2020,5,1⟩).map keyOfAgg).Nodup ∧
    List.Sorted keyLe ((process_data [⟨⟨⟨2020,4,1⟩,0⟩, "", 5, 1, some 2, "A", "AAA"⟩]
      ["A"] ⟨2020,3,1⟩ ⟨2020,5,1⟩).map keyOfAgg) :=
  ⟨(process_data_spec [⟨⟨⟨2020,4,1⟩,0⟩, "", 5, 1, some 2, "A", "AAA"⟩]
      ["A"] ⟨2020,3,1⟩ ⟨2020,5,1⟩).2.2.2.1,
   (process_data_spec [⟨⟨⟨2020,4,1⟩,0⟩, "", 5, 1, some 2, "A", "AAA"⟩]
      ["A"] ⟨2020,3,1⟩ ⟨2020,5,1⟩).2.2.1⟩

theorem dashboard_metrics_witness :
    ([(⟨⟨2020,4,1⟩, "A", "AAA", 5, 1, some 2⟩ : AggRow)] ≠ []) ∧
    metricIsFirstMax [(⟨⟨2020,4,1⟩, "A", "AAA", 5, 1, some 2⟩ : AggRow)]
      (fun r => r.confirmed) :=
  ⟨by decide,
   (dashboard_metrics [⟨⟨2020,4,1⟩, "A", "AAA", 5, 1, some 2⟩] (by decide)).1⟩

theorem process_data_frame_effect_witness :
    (process_data_state [⟨⟨⟨2020,4,1⟩,3600⟩, "", 5, 1, none, "A", "AAA"⟩]
      ["A"] ⟨2020,3,1⟩ ⟨2020,5,1⟩).1
      = [⟨⟨⟨2020,4,1⟩,3600⟩, "", 5, 1, none, "A", "AAA"⟩].map normalizeRow ∧
    (normalizeRow ⟨⟨⟨2020,4,1⟩,3600⟩, "", 5, 1, none, "A", "AAA"⟩).date
      = ⟨⟨2020,4,1⟩, 0⟩ :=
  ⟨(process_data_frame_effect [⟨⟨⟨2020,4,1⟩,3600⟩, "", 5, 1, none, "A", "AAA"⟩]
      ["A"] ⟨2020,3,1⟩ ⟨2020,5,1⟩).1,
   ((process_data_frame_effect [⟨⟨⟨2020,4,1⟩,3600⟩, "", 5, 1, none, "A", "AAA"⟩]
      ["A"] ⟨2020,3,1⟩ ⟨2020,5,1⟩).2.1 _).1⟩

end Covid
